import Mathlib

/-!
Verification of the sequence containers of `rosidl_runtime_rs`
(`src/rosidl_runtime_rs/src/sequence.rs`).

The value-level model represents a `Sequence<T>` by the list of its `size`
logical elements (the `as_slice` view) together with the `capacity` field.
In this library every buffer produced by `sequence_init` has
`capacity = size`, so the slice view plus the capacity field determine the
whole struct up to the address of the buffer; pointer-level facts (the null
sentinel of `default()`, independence of a clone from its original) are
treated separately by a small heap model further below.
-/

namespace RosidlSeq

/-- Value model of `Sequence<T>`: `data` is the slice view (so `size` is
`data.length`), `capacity` is the `capacity` field. -/
structure Sequence (T : Type) where
  data : List T
  capacity : Nat
  deriving Repr, DecidableEq

variable {T : Type}

/-- `size` field: the slice view has exactly `size` elements. -/
def Sequence.size (s : Sequence T) : Nat := s.data.length

/-- `Sequence::as_slice` / the `Deref` view. -/
def Sequence.asSlice (s : Sequence T) : List T := s.data

/-- `<[T]>::is_empty` on the slice view. -/
def Sequence.isEmpty (s : Sequence T) : Bool := s.data.isEmpty

/-- `Sequence::default()`: empty, `size = 0`, `capacity = 0`. -/
def Sequence.defaultSeq (T : Type) : Sequence T := ⟨[], 0⟩

/-- `Sequence::new(len)`: `sequence_init` allocates `len` elements, sets
`size = capacity = len` and default-initializes them (zero-fills for the
scalar backends). -/
def Sequence.new (T : Type) [Inhabited T] (len : Nat) : Sequence T :=
  ⟨List.replicate len default, len⟩

/-- `<[T]>::clone_from_slice` through the `DerefMut` view (lengths agree at
every call site in the source): overwrite the slice contents. -/
def Sequence.cloneFromSlice (s : Sequence T) (src : List T) : Sequence T :=
  ⟨src, s.capacity⟩

/-- Models `usize::next_power_of_two`: the smallest power of two that is
greater than or equal to the argument (`1` for `0`). -/
def nextPowerOfTwo (n : Nat) : Nat := 2 ^ Nat.clog 2 n

/-- The `resize` closure inside `Sequence::extend`: replace `self` by
`Sequence::new(new_size)`, then move the first `min (old size) new_size`
old elements into their slots. -/
def Sequence.resize [Inhabited T] (s : Sequence T) (newSize : Nat) : Sequence T :=
  ⟨s.data.take newSize ++ List.replicate (newSize - s.data.length) default, newSize⟩

/-- Body of the `for item in it` loop of `Sequence::extend`. The state is
`(self, cur_idx)`: if no slot is free (`cur_idx == self.size`), resize to
the next power of two ≥ `self.size + 1`; then store `item` at `cur_idx`
and advance. -/
def Sequence.extendStep [Inhabited T] (st : Sequence T × Nat) (item : T) :
    Sequence T × Nat :=
  let s := if st.2 = st.1.size then st.1.resize (nextPowerOfTwo (st.1.size + 1)) else st.1
  (⟨s.data.set st.2 item, s.capacity⟩, st.2 + 1)

/-- `Sequence::extend`. `lb` is the lower bound reported by the source
iterator's `size_hint`, `items` the elements it actually yields. First
pre-grow by `lb` when `lb > 0` (the source's `saturating_add` on `usize` is
plain addition on `Nat`, which cannot saturate), then run the loop, finally
shrink to `cur_idx` when over-reserved. -/
def Sequence.extend [Inhabited T] (s : Sequence T) (lb : Nat) (items : List T) :
    Sequence T :=
  let cur := s.size
  let s := if 0 < lb then s.resize (s.size + lb) else s
  let st := items.foldl Sequence.extendStep (s, cur)
  if st.2 < st.1.size then st.1.resize st.2 else st.1

/-- `From<&[T]> for Sequence<T>`: `Sequence::new(slice.len())` followed by
`clone_from_slice`. -/
def Sequence.fromSlice [Inhabited T] (slice : List T) : Sequence T :=
  (Sequence.new T slice.length).cloneFromSlice slice

/-- `FromIterator<T> for Sequence<T>`: `Sequence::new(0)` then `extend`. -/
def Sequence.fromIter [Inhabited T] (lb : Nat) (items : List T) : Sequence T :=
  (Sequence.new T 0).extend lb items

/-- `From<Vec<T>> for Sequence<T>`: `Sequence::from_iter(v)`; a vector's
iterator reports its exact length as the lower bound. -/
def Sequence.fromVec [Inhabited T] (v : List T) : Sequence T :=
  Sequence.fromIter v.length v

/-! ### Properties of `nextPowerOfTwo` -/

lemma nextPowerOfTwo_pow (n : Nat) : ∃ k, nextPowerOfTwo n = 2 ^ k :=
  ⟨Nat.clog 2 n, rfl⟩

lemma le_nextPowerOfTwo (n : Nat) : n ≤ nextPowerOfTwo n :=
  Nat.le_pow_clog (by norm_num) n

lemma nextPowerOfTwo_le {n m k : Nat} (hm : m = 2 ^ k) (h : n ≤ m) :
    nextPowerOfTwo n ≤ m := by
  subst hm
  have h1 : Nat.clog 2 n ≤ k := by
    have h2 := Nat.clog_mono_right 2 h
    rwa [Nat.clog_pow 2 k (by norm_num)] at h2
  exact Nat.pow_le_pow_right (by norm_num) h1

lemma set_append_length (P : List T) (x y : T) (rest : List T) :
    (P ++ x :: rest).set P.length y = P ++ y :: rest := by
  simp [List.set_append]

/-! ### Properties of `resize` and the `extend` loop -/

variable [Inhabited T]

lemma resize_grow (s : Sequence T) {n : Nat} (h : s.data.length ≤ n) :
    s.resize n = ⟨s.data ++ List.replicate (n - s.data.length) default, n⟩ := by
  simp [Sequence.resize, List.take_of_length_le h]

lemma resize_shrink (s : Sequence T) {n : Nat} (h : n ≤ s.data.length) :
    s.resize n = ⟨s.data.take n, n⟩ := by
  simp [Sequence.resize, Nat.sub_eq_zero_of_le h]

lemma resize_size (s : Sequence T) (n : Nat) : (s.resize n).size = n := by
  simp [Sequence.resize, Sequence.size]
  omega

/-- Unfolding lemma for `extendStep`. -/
lemma extendStep_def (s : Sequence T) (cur : Nat) (item : T) :
    Sequence.extendStep (s, cur) item
      = (⟨(if cur = s.size then s.resize (nextPowerOfTwo (s.size + 1)) else s).data.set
            cur item,
          (if cur = s.size then s.resize (nextPowerOfTwo (s.size + 1)) else s).capacity⟩,
         cur + 1) := rfl

/-- When a free slot is available (`cur_idx ≠ size`), the loop body just
writes the element. -/
lemma extendStep_of_ne {s : Sequence T} {cur : Nat} (h : cur ≠ s.size) (item : T) :
    Sequence.extendStep (s, cur) item = (⟨s.data.set cur item, s.capacity⟩, cur + 1) := by
  rw [extendStep_def, if_neg h]

/-- When the sequence is full (`cur_idx = size`), the loop body first grows the
buffer to `nextPowerOfTwo (size + 1)` and then writes the element. -/
lemma extendStep_of_full (s : Sequence T) (item : T) :
    Sequence.extendStep (s, s.size) item
      = (⟨(s.resize (nextPowerOfTwo (s.size + 1))).data.set s.size item,
          nextPowerOfTwo (s.size + 1)⟩, s.size + 1) := by
  rw [extendStep_def, if_pos rfl]
  rfl

/-- One loop step, on a state made of a committed prefix `P` and `pad`
default-valued free slots: the element lands right after `P` and some positive
number of slots was available (after growing if needed). -/
lemma extendStep_eq (P : List T) (pad : Nat) (item : T) :
    ∃ pad1, 0 < pad1 ∧
      Sequence.extendStep (⟨P ++ List.replicate pad default, P.length + pad⟩, P.length) item
      = (⟨(P ++ [item]) ++ List.replicate (pad1 - 1) default, P.length + pad1⟩,
         P.length + 1) := by
  match pad with
  | 0 =>
    have hg : P.length + 1 ≤ nextPowerOfTwo (P.length + 1) := le_nextPowerOfTwo _
    refine ⟨nextPowerOfTwo (P.length + 1) - P.length, by omega, ?_⟩
    have hs : (⟨P ++ List.replicate 0 default, P.length + 0⟩ : Sequence T)
        = ⟨P, P.length⟩ := by simp
    rw [hs]
    have hfull : P.length = (⟨P, P.length⟩ : Sequence T).size := rfl
    have hsz : (⟨P, P.length⟩ : Sequence T).size = P.length := rfl
    rw [show ((⟨P, P.length⟩ : Sequence T), P.length)
          = ((⟨P, P.length⟩ : Sequence T), (⟨P, P.length⟩ : Sequence T).size) from rfl,
        extendStep_of_full, hsz,
        resize_grow _ (show (⟨P, P.length⟩ : Sequence T).data.length
          ≤ nextPowerOfTwo (P.length + 1) from Nat.le_of_succ_le hg)]
    have hrep : nextPowerOfTwo (P.length + 1) - (⟨P, P.length⟩ : Sequence T).data.length
        = (nextPowerOfTwo (P.length + 1) - P.length - 1) + 1 := by
      show nextPowerOfTwo (P.length + 1) - P.length = _
      omega
    rw [hrep, List.replicate_succ]
    rw [set_append_length]
    have harg : nextPowerOfTwo (P.length + 1) - P.length - 1 + 1 - 1
        = nextPowerOfTwo (P.length + 1) - P.length - 1 := by omega
    have hcap : P.length + (nextPowerOfTwo (P.length + 1) - P.length - 1 + 1)
        = nextPowerOfTwo (P.length + 1) := by omega
    rw [harg, hcap]
    simp
  | pad + 1 =>
    refine ⟨pad + 1, Nat.succ_pos _, ?_⟩
    have hne : P.length
        ≠ (⟨P ++ List.replicate (pad + 1) default, P.length + (pad + 1)⟩ : Sequence T).size := by
      simp [Sequence.size]
    rw [extendStep_of_ne hne]
    rw [List.replicate_succ, set_append_length]
    simp

/-- Invariant of the `for` loop of `Sequence::extend`: starting from a committed
prefix `P` followed by `pad` default-valued free slots (`capacity = size`,
`cur_idx = P.length`), consuming `items` commits exactly `P ++ items`, followed
by some number of leftover free slots. -/
lemma foldl_extendStep (items : List T) :
    ∀ (P : List T) (pad : Nat),
    ∃ padf,
      items.foldl Sequence.extendStep
        (⟨P ++ List.replicate pad default, P.length + pad⟩, P.length)
      = (⟨(P ++ items) ++ List.replicate padf default,
          (P.length + items.length) + padf⟩,
         P.length + items.length) := by
  induction items with
  | nil => exact fun P pad => ⟨pad, by simp⟩
  | cons item rest ih =>
    intro P pad
    rw [List.foldl_cons]
    obtain ⟨pad1, hpos, hstep⟩ := extendStep_eq P pad item
    rw [hstep]
    obtain ⟨padf, hfold⟩ := ih (P ++ [item]) (pad1 - 1)
    rw [show (P ++ [item]).length = P.length + 1 by simp,
        show P.length + 1 + (pad1 - 1) = P.length + pad1 by omega] at hfold
    rw [hfold]
    refine ⟨padf, ?_⟩
    simp only [Prod.mk.injEq, Sequence.mk.injEq, List.length_cons]
    refine ⟨⟨by simp, by omega⟩, by omega⟩

/-- Unfolding lemma for `extend` (zeta-reduced form of the definition). -/
lemma extend_def (s : Sequence T) (lb : Nat) (items : List T) :
    s.extend lb items =
      (if (items.foldl Sequence.extendStep
            ((if 0 < lb then s.resize (s.size + lb) else s), s.size)).2
          < (items.foldl Sequence.extendStep
            ((if 0 < lb then s.resize (s.size + lb) else s), s.size)).1.size
       then (items.foldl Sequence.extendStep
            ((if 0 < lb then s.resize (s.size + lb) else s), s.size)).1.resize
              ((items.foldl Sequence.extendStep
                ((if 0 < lb then s.resize (s.size + lb) else s), s.size)).2)
       else (items.foldl Sequence.extendStep
            ((if 0 < lb then s.resize (s.size + lb) else s), s.size)).1) := rfl

/-- The state entering the `for` loop of `extend`: whether or not the size
hint triggers the pre-growth, the buffer is the old contents followed by
`lb` default-valued free slots. -/
lemma extend_entry (D : List T) (lb : Nat) :
    (if 0 < lb
     then (⟨D, D.length⟩ : Sequence T).resize ((⟨D, D.length⟩ : Sequence T).size + lb)
     else (⟨D, D.length⟩ : Sequence T))
    = ⟨D ++ List.replicate lb default, D.length + lb⟩ := by
  rcases Nat.eq_zero_or_pos lb with hlb | hlb
  · subst hlb; simp
  · rw [if_pos hlb,
      resize_grow _ (show (⟨D, D.length⟩ : Sequence T).data.length
        ≤ (⟨D, D.length⟩ : Sequence T).size + lb from Nat.le_add_right _ _)]
    show (⟨D ++ List.replicate (D.length + lb - D.length) default, D.length + lb⟩ :
        Sequence T) = _
    rw [Nat.add_sub_cancel_left]

/-- Main lemma about `Sequence::extend`: on a sequence without spare capacity
(`capacity = size`, true of every sequence this library constructs), extending
with any source appends exactly the yielded elements — for every value of the
source's lower-bound hint — and leaves no spare capacity behind. -/
lemma extend_eq (s : Sequence T) (h : s.capacity = s.size) (lb : Nat) (items : List T) :
    s.extend lb items = ⟨s.data ++ items, s.data.length + items.length⟩ := by
  obtain ⟨D, c⟩ := s
  have hc : c = D.length := h
  subst hc
  obtain ⟨padf, hfold⟩ := foldl_extendStep items D lb
  rw [extend_def, extend_entry,
      show (⟨D, D.length⟩ : Sequence T).size = D.length from rfl, hfold]
  match padf with
  | 0 =>
    rw [if_neg (by simp [Sequence.size])]
    simp
  | padf + 1 =>
    rw [if_pos (by simp [Sequence.size]),
        resize_shrink _ (by simp [Sequence.size])]
    have ht : ((D ++ items) ++ List.replicate (padf + 1) (default : T)).take
          (D.length + items.length) = D ++ items := by
      rw [List.take_append_of_le_length (by simp)]
      exact List.take_of_length_le (by simp)
    show (⟨((D ++ items) ++ List.replicate (padf + 1) default).take
        (D.length + items.length), D.length + items.length⟩ : Sequence T) = _
    rw [ht]

/-! ### The consuming iterator -/

/-- `SequenceIterator<T>`: the consumed sequence plus the cursor `idx`. -/
structure SequenceIterator (T : Type) where
  seq : Sequence T
  idx : Nat
  deriving Repr, DecidableEq

/-- `IntoIterator for Sequence<T>`: hand the sequence to the iterator with the
cursor at 0. -/
def Sequence.intoIter (s : Sequence T) : SequenceIterator T := ⟨s, 0⟩

/-- `SequenceIterator::next`: `None` when `idx ≥ size`; otherwise read the
element at `idx` out by value, overwrite that slot with the zeroed
placeholder, and advance the cursor. Returns the yielded element together
with the successor state of the iterator. -/
def SequenceIterator.next (it : SequenceIterator T) : Option T × SequenceIterator T :=
  if h : it.seq.size ≤ it.idx then (none, it)
  else
    (some (it.seq.data.get ⟨it.idx, Nat.lt_of_not_le h⟩),
     ⟨⟨it.seq.data.set it.idx default, it.seq.capacity⟩, it.idx + 1⟩)

/-- `SequenceIterator::size_hint`: the code computes `(self.seq.size + 1) -
self.idx` and reports it as both the lower and the upper bound. -/
def SequenceIterator.sizeHint (it : SequenceIterator T) : Nat × Option Nat :=
  ((it.seq.size + 1) - it.idx, some ((it.seq.size + 1) - it.idx))

/-- `ExactSizeIterator::len` for `SequenceIterator`: the code computes
`(self.seq.size + 1) - self.idx`. -/
def SequenceIterator.len (it : SequenceIterator T) : Nat :=
  (it.seq.size + 1) - it.idx

/-- The elements that repeated calls to `next` will still yield, in order. -/
def SequenceIterator.remaining (it : SequenceIterator T) : List T :=
  if h : it.seq.size ≤ it.idx then []
  else
    it.seq.data.get ⟨it.idx, Nat.lt_of_not_le h⟩ ::
      SequenceIterator.remaining
        ⟨⟨it.seq.data.set it.idx default, it.seq.capacity⟩, it.idx + 1⟩
termination_by it.seq.size - it.idx
decreasing_by
  simp only [Sequence.size, List.length_set] at *
  omega

/-- The iterator yields exactly the elements of the underlying buffer from the
cursor on. -/
lemma remaining_eq_drop (it : SequenceIterator T) :
    it.remaining = it.seq.data.drop it.idx := by
  rw [SequenceIterator.remaining]
  split
  · next h => exact (List.drop_eq_nil_of_le h).symm
  · next h =>
    have hlt : it.idx < it.seq.data.length := Nat.lt_of_not_le h
    rw [remaining_eq_drop ⟨⟨it.seq.data.set it.idx default, it.seq.capacity⟩, it.idx + 1⟩]
    show _ :: (it.seq.data.set it.idx default).drop (it.idx + 1) = _
    rw [List.drop_set_of_lt _ _ (Nat.lt_succ_self it.idx),
        List.drop_eq_getElem_cons hlt]
    rfl
termination_by it.seq.size - it.idx
decreasing_by
  simp only [Sequence.size, List.length_set] at *
  omega

/-- `next` on an exhausted iterator returns `None` and leaves the state
untouched. -/
lemma next_of_exhausted {it : SequenceIterator T} (h : it.seq.size ≤ it.idx) :
    it.next = (none, it) := by
  rw [SequenceIterator.next, dif_pos h]

/-- Whenever `next` reports no element, the state is unchanged, so every
subsequent call reports no element again (fused behavior). -/
lemma next_none_fused {it : SequenceIterator T} (h : (it.next).1 = none) :
    it.next = (none, it) := by
  by_cases hc : it.seq.size ≤ it.idx
  · exact next_of_exhausted hc
  · rw [SequenceIterator.next, dif_neg hc] at h
    simp at h

/-! ### The bounded sequence -/

/-- `SequenceExceedsBoundsError`: carries the attempted length and the upper
bound. -/
structure SequenceExceedsBoundsError where
  len : Nat
  upper_bound : Nat
  deriving Repr, DecidableEq

/-- `BoundedSequence<T, N>`: a wrapped `Sequence<T>`; the bound `N` is a
type-level parameter, not a stored field. -/
structure BoundedSequence (T : Type) (N : Nat) where
  inner : Sequence T
  deriving Repr, DecidableEq

/-- `BoundedSequence::default()`: empty inner sequence, no allocation. -/
def BoundedSequence.defaultSeq (T : Type) (N : Nat) : BoundedSequence T N := ⟨⟨[], 0⟩⟩

/-- `BoundedSequence::try_new(len)`: a bounds-exceeded error carrying `len`
and `N` when `len > N`; otherwise `sequence_init` on a default inner
sequence, which is exactly the unbounded `new`. -/
def BoundedSequence.tryNew (T : Type) [Inhabited T] (N len : Nat) :
    Except SequenceExceedsBoundsError (BoundedSequence T N) :=
  if len > N then Except.error ⟨len, N⟩
  else Except.ok ⟨Sequence.new T len⟩

/-- `BoundedSequence::new(len)` is `try_new(len).unwrap()`; `none` models the
abort on a bounds violation. -/
def BoundedSequence.new? (T : Type) [Inhabited T] (N len : Nat) :
    Option (BoundedSequence T N) :=
  (BoundedSequence.tryNew T N len).toOption

/-- `Extend for BoundedSequence`: delegate to the inner `extend` with the
source truncated by `take(N - size)`; the `Take` adapter reports
`min lb (N - size)` as its lower bound when the underlying source reports
`lb`. The `usize` subtraction `N - size` cannot underflow on states
satisfying the `size ≤ N` invariant; `Nat` subtraction models it. -/
def BoundedSequence.extend {N : Nat} (b : BoundedSequence T N)
    (lb : Nat) (items : List T) : BoundedSequence T N :=
  ⟨b.inner.extend (min lb (N - b.inner.size)) (items.take (N - b.inner.size))⟩

/-- `FromIterator for BoundedSequence`: `BoundedSequence::new(0)` then
`extend`. -/
def BoundedSequence.fromIter (T : Type) [Inhabited T] (N : Nat) (lb : Nat)
    (items : List T) : BoundedSequence T N :=
  (⟨Sequence.new T 0⟩ : BoundedSequence T N).extend lb items

/-- `TryFrom<&[T]> for BoundedSequence`: `try_new(slice.len())?` followed by
`clone_from_slice`. -/
def BoundedSequence.tryFromSlice (N : Nat) (slice : List T) :
    Except SequenceExceedsBoundsError (BoundedSequence T N) :=
  match BoundedSequence.tryNew T N slice.length with
  | Except.error e => Except.error e
  | Except.ok seq => Except.ok ⟨seq.inner.cloneFromSlice slice⟩

/-- `TryFrom<Vec<T>> for BoundedSequence`: explicit length check, then
`from_iter` (a vector's iterator reports its exact length as lower bound). -/
def BoundedSequence.tryFromVec (N : Nat) (v : List T) :
    Except SequenceExceedsBoundsError (BoundedSequence T N) :=
  if v.length > N then Except.error ⟨v.length, N⟩
  else Except.ok (BoundedSequence.fromIter T N v.length v)

/-- Characterization of the bounded `extend` on a sequence without spare
capacity: exactly the first `N - size` source elements are appended. -/
lemma bextend_eq {N : Nat} (b : BoundedSequence T N)
    (h : b.inner.capacity = b.inner.size) (lb : Nat) (items : List T) :
    b.extend lb items
      = ⟨⟨b.inner.data ++ items.take (N - b.inner.size),
          b.inner.data.length + (items.take (N - b.inner.size)).length⟩⟩ := by
  unfold BoundedSequence.extend
  rw [extend_eq _ h]

/-- `BoundedSequence::from_iter` keeps the first `N` elements of the source. -/
lemma bfromIter_eq (N lb : Nat) (items : List T) :
    BoundedSequence.fromIter T N lb items
      = ⟨⟨items.take N, (items.take N).length⟩⟩ := by
  unfold BoundedSequence.fromIter
  rw [bextend_eq _ rfl]
  simp [Sequence.new, Sequence.size]

/-! ### Pointer-level heap model

For the claims about the null `data` sentinel and about the independence of a
clone from its original, the address of the buffer matters, so the value
model is complemented by a pointer-level one: the heap records the blocks the
allocator has handed out so far, a fresh allocation appends a block, and a
`data` pointer is either null (`none`) or the index of a block. -/

/-- The allocator state: the blocks handed out so far, oldest first. -/
abbrev Heap (T : Type) : Type := List (List T)

/-- The raw `Sequence<T>` struct: `data` pointer (`none` is the null
sentinel), `size` and `capacity` fields. -/
structure RawSequence (T : Type) where
  data : Option Nat
  size : Nat
  capacity : Nat
  deriving Repr, DecidableEq

/-- Contents of the block a pointer refers to (`[]` for null). -/
def deref (h : Heap T) (p : Option Nat) : List T :=
  match p with
  | none => []
  | some b => h.getD b []

/-- `as_slice` at the raw level: the `size` elements starting at `data`. -/
def rawAsSlice (h : Heap T) (s : RawSequence T) : List T :=
  (deref h s.data).take s.size

/-- `Sequence::default()` at the raw level: the null sentinel and zero
size/capacity; the allocator is not called (the heap is returned as is). -/
def rawDefault (T : Type) (h : Heap T) : RawSequence T × Heap T :=
  (⟨none, 0, 0⟩, h)

/-- `libc::realloc(ptr, len)` in this model: hand out a fresh block holding
the old contents truncated or extended (default filler standing for the
uninitialized tail) to `len` elements; `realloc(null, len)` is a fresh
allocation. Allocation never fails in the model. -/
def realloc (h : Heap T) (p : Option Nat) (len : Nat) : Heap T × Nat :=
  (h ++ [(deref h p).take len ++ List.replicate (len - (deref h p).length) default],
   h.length)

/-- `sequence_copy` of the scalar backends: grow the destination through
`realloc` when its capacity is insufficient, `memcpy` the `src.size` leading
elements across, then set `dst.size`. The model's allocation always succeeds,
so the `false` return of the source is unreachable here. -/
def sequenceCopy (h : Heap T) (src dst : RawSequence T) :
    RawSequence T × Heap T :=
  let dh :=
    if dst.capacity < src.size then
      ({ dst with
          data := some ((realloc h dst.data src.size).2),
          capacity := src.size }, (realloc h dst.data src.size).1)
    else (dst, h)
  let h2 :=
    match (dh.1).data with
    | none => dh.2
    | some db =>
        (dh.2).set db ((deref dh.2 src.data).take src.size
          ++ ((dh.2).getD db []).drop src.size)
  ({ dh.1 with size := src.size }, h2)

/-- `Clone for Sequence`: `sequence_copy` into a default destination (the
panic branch of the source is unreachable, as the model's allocation always
succeeds). -/
def rawClone (h : Heap T) (s : RawSequence T) : RawSequence T × Heap T :=
  sequenceCopy h s ⟨none, 0, 0⟩

/-- Indexed assignment `seq[i] = v` through the `DerefMut` slice view, at the
raw level: overwrite element `i` of the backing block in place. -/
def rawSetElem (h : Heap T) (s : RawSequence T) (i : Nat) (v : T) : Heap T :=
  match s.data with
  | none => h
  | some b => h.set b ((h.getD b []).set i v)

/-- Well-formedness of a raw sequence: a null sequence is empty; otherwise
`data` refers to an allocated block holding at least `size` elements. -/
def RawSequence.WF (h : Heap T) (s : RawSequence T) : Prop :=
  (s.data = none → s.size = 0)
  ∧ ∀ b, s.data = some b → b < h.length ∧ s.size ≤ (h.getD b []).length

omit [Inhabited T] in
lemma deref_none (h : Heap T) : deref h none = [] := rfl

omit [Inhabited T] in
lemma deref_some (h : Heap T) (b : Nat) : deref h (some b) = h.getD b [] := rfl

omit [Inhabited T] in
lemma rawAsSlice_some (h : Heap T) (s : RawSequence T) {b : Nat}
    (hd : s.data = some b) : rawAsSlice h s = (h.getD b []).take s.size := by
  rw [rawAsSlice, hd, deref_some]

omit [Inhabited T] in
lemma rawSetElem_some (h : Heap T) (s : RawSequence T) {b : Nat}
    (hd : s.data = some b) (i : Nat) (v : T) :
    rawSetElem h s i v = h.set b ((h.getD b []).set i v) := by
  rw [rawSetElem.eq_def, hd]

/-! ### getD helpers -/

lemma getD_set_ne {α : Type} {l : List α} {i j : Nat} (h : i ≠ j) (a d : α) :
    (l.set i a).getD j d = l.getD j d := by
  simp [List.getD_eq_getElem?_getD, List.getElem?_set_ne h]

lemma getD_set_self {α : Type} {l : List α} {i : Nat} (h : i < l.length) (a d : α) :
    (l.set i a).getD i d = a := by
  simp [List.getD_eq_getElem?_getD, List.getElem?_set_self h]

lemma getD_append_left {α : Type} {l1 l2 : List α} {i : Nat} (h : i < l1.length)
    (d : α) : (l1 ++ l2).getD i d = l1.getD i d := by
  simp [List.getD_eq_getElem?_getD, List.getElem?_append_left h]

lemma getD_concat_length {α : Type} (l : List α) (a d : α) :
    (l ++ [a]).getD l.length d = a := by
  simp [List.getD_eq_getElem?_getD, List.getElem?_concat_length]

/-! ### Behavior of the raw clone -/

/-- Cloning an empty sequence performs no allocation and yields the default
struct. -/
lemma rawClone_zero (h : Heap T) (s : RawSequence T) (hsz : s.size = 0) :
    rawClone h s = (⟨none, 0, 0⟩, h) := by
  unfold rawClone sequenceCopy
  simp [hsz]

/-- Cloning a nonempty well-formed sequence allocates a fresh block at the end
of the heap and copies the slice contents into it. -/
lemma rawClone_pos {h : Heap T} {s : RawSequence T} {b : Nat}
    (hb : s.data = some b) (hblk : b < h.length) (hpos : 0 < s.size) :
    rawClone h s
      = (⟨some h.length, s.size, s.size⟩,
         (h ++ [List.replicate s.size default]).set h.length
           ((h.getD b []).take s.size)) := by
  unfold rawClone sequenceCopy
  rw [if_pos (show (0 : Nat) < s.size from hpos)]
  simp only [realloc, deref, hb]
  rw [getD_append_left hblk, getD_concat_length]
  simp

/-! ### Claim theorems -/

/-- C1: the spec claims the iterator's remaining-length hint (`size_hint` and
`len`) equals `size − idx` and always matches the number of subsequent
yields. The code computes `(size + 1) − idx` instead: over the empty
sequence, the fresh iterator reports a hint and length of `1` while `0`
elements remain (`size − idx = 0`), contradicting the claim. -/
theorem iterator_len_off_by_one :
    (Sequence.intoIter (Sequence.new Int 0)).len = 1
    ∧ (Sequence.intoIter (Sequence.new Int 0)).sizeHint = (1, some 1)
    ∧ (Sequence.intoIter (Sequence.new Int 0)).remaining = []
    ∧ (Sequence.intoIter (Sequence.new Int 0)).seq.size
        - (Sequence.intoIter (Sequence.new Int 0)).idx = 0 := by
  refine ⟨rfl, rfl, ?_, rfl⟩
  rw [remaining_eq_drop]
  rfl

/-- C2: extending a freshly constructed sequence containing `A` with the
elements of `B` — whatever lower bound the source iterator reports — yields a
sequence of length `len A + len B` whose first `len A` elements are `A` and
whose remaining elements are `B`, in order. -/
theorem extend_appends (A B : List Int) (lb : Nat) :
    ((Sequence.fromSlice A).extend lb B).size = A.length + B.length
    ∧ (((Sequence.fromSlice A).extend lb B).asSlice).take A.length = A
    ∧ (((Sequence.fromSlice A).extend lb B).asSlice).drop A.length = B := by
  have he := extend_eq (Sequence.fromSlice A) rfl lb B
  rw [show (Sequence.fromSlice A).data = A from rfl] at he
  rw [he]
  refine ⟨by simp [Sequence.size], ?_, ?_⟩
  · show (A ++ B).take A.length = A
    exact List.take_left A B
  · show (A ++ B).drop A.length = B
    exact List.drop_left A B

/-- C3: consuming iteration over `S` yields exactly `size S` elements, equal
to `S`'s contents in order; `next` yields nothing when `idx ≥ size`, and the
iterator is fused: whenever `next` reports no element the state is unchanged
and the following call reports no element again. -/
theorem into_iter_yields_all (s : Sequence Int) :
    (Sequence.intoIter s).remaining = s.asSlice
    ∧ ((Sequence.intoIter s).remaining).length = s.size
    ∧ (∀ it : SequenceIterator Int, it.seq.size ≤ it.idx → it.next = (none, it))
    ∧ (∀ it : SequenceIterator Int, (it.next).1 = none →
        it.next = (none, it) ∧ ((it.next).2).next = (none, (it.next).2)) := by
  refine ⟨?_, ?_, fun it h => next_of_exhausted h, fun it h => ?_⟩
  · rw [remaining_eq_drop]
    rfl
  · rw [remaining_eq_drop]
    rfl
  · have h2 := next_none_fused h
    refine ⟨h2, ?_⟩
    rw [h2]
    exact h2

theorem into_iter_yields_all_witness :
    ((Sequence.intoIter (⟨[1, 2], 2⟩ : Sequence Int)).remaining = [1, 2])
    ∧ (⟨⟨[1, 2], 2⟩, 2⟩ : SequenceIterator Int).next = (none, ⟨⟨[1, 2], 2⟩, 2⟩) :=
  ⟨((into_iter_yields_all ⟨[1, 2], 2⟩).1).trans rfl,
   ((into_iter_yields_all ⟨[1, 2], 2⟩).2.2.1) ⟨⟨[1, 2], 2⟩, 2⟩ (by decide)⟩

/-- C9: `new(len)` yields exactly `len` default-valued elements (zero for the
scalar backend, here `i64`/`Int`); `default()` is the struct with the null
data sentinel, `size = 0`, `capacity = 0`, it does not touch the allocator,
and its slice view is empty with `is_empty` true. -/
theorem new_and_default_spec (len : Nat) (h : Heap Int) :
    (Sequence.new Int len).asSlice = List.replicate len 0
    ∧ (Sequence.new Int len).size = len
    ∧ (Sequence.defaultSeq Int).data = [] ∧ (Sequence.defaultSeq Int).capacity = 0
    ∧ (Sequence.defaultSeq Int).size = 0
    ∧ (Sequence.defaultSeq Int).isEmpty = true
    ∧ rawDefault Int h = (⟨none, 0, 0⟩, h)
    ∧ rawAsSlice h (rawDefault Int h).1 = [] := by
  exact ⟨rfl, by simp [Sequence.new, Sequence.size], rfl, rfl, rfl, rfl, rfl, rfl⟩

/-- C10: the unbounded conversions from a slice, a vector, or any iterator of
`L` elements are total (no error, no truncation) and produce exactly the `L`
source elements, in order. -/
theorem unbounded_conversions (v : List Int) (lb : Nat) :
    (Sequence.fromSlice v).asSlice = v
    ∧ (Sequence.fromSlice v).size = v.length
    ∧ (Sequence.fromVec v).asSlice = v
    ∧ (Sequence.fromVec v).size = v.length
    ∧ (Sequence.fromIter lb v).asSlice = v
    ∧ (Sequence.fromIter lb v).size = v.length := by
  have hi : ∀ lb2 : Nat, Sequence.fromIter (T := Int) lb2 v = ⟨v, v.length⟩ := by
    intro lb2
    unfold Sequence.fromIter
    rw [extend_eq _ rfl]
    simp [Sequence.new]
  refine ⟨rfl, by simp [Sequence.fromSlice, Sequence.cloneFromSlice, Sequence.size], ?_, ?_, ?_, ?_⟩
  · rw [Sequence.fromVec, hi]
    rfl
  · rw [Sequence.fromVec, hi]
    simp [Sequence.size]
  · rw [hi]
    rfl
  · rw [hi]
    simp [Sequence.size]

/-- C4: `try_new(len)` returns the bounds-exceeded error, carrying `len` and
`N`, exactly when `len > N`, and otherwise succeeds like the unbounded `new`;
converting a slice or vector of length `L` fails with the error carrying `L`
and `N` exactly when `L > N` (never truncating), and otherwise the result
equals the source element-wise, in order. -/
theorem bounded_construction_bounds (N len : Nat) (L : List Int) :
    (N < len →
      BoundedSequence.tryNew Int N len = Except.error ⟨len, N⟩)
    ∧ (len ≤ N →
      BoundedSequence.tryNew Int N len = Except.ok ⟨Sequence.new Int len⟩)
    ∧ (N < L.length →
      BoundedSequence.tryFromSlice N L = Except.error ⟨L.length, N⟩
      ∧ BoundedSequence.tryFromVec N L = Except.error ⟨L.length, N⟩)
    ∧ (L.length ≤ N →
      BoundedSequence.tryFromSlice N L = Except.ok ⟨⟨L, L.length⟩⟩
      ∧ BoundedSequence.tryFromVec N L = Except.ok ⟨⟨L, L.length⟩⟩) := by
  refine ⟨fun hl => ?_, fun hl => ?_, fun hl => ⟨?_, ?_⟩, fun hl => ⟨?_, ?_⟩⟩
  · rw [BoundedSequence.tryNew, if_pos hl]
  · rw [BoundedSequence.tryNew, if_neg (Nat.not_lt.mpr hl)]
  · rw [BoundedSequence.tryFromSlice, BoundedSequence.tryNew, if_pos hl]
  · rw [BoundedSequence.tryFromVec, if_pos hl]
  · rw [BoundedSequence.tryFromSlice, BoundedSequence.tryNew,
      if_neg (Nat.not_lt.mpr hl)]
    rfl
  · rw [BoundedSequence.tryFromVec, if_neg (Nat.not_lt.mpr hl), bfromIter_eq,
      List.take_of_length_le hl]

theorem bounded_construction_bounds_witness :
    BoundedSequence.tryNew Int 2 3 = Except.error ⟨3, 2⟩
    ∧ BoundedSequence.tryFromVec 2 ([5, 6] : List Int) = Except.ok ⟨⟨[5, 6], 2⟩⟩
    ∧ BoundedSequence.tryFromSlice 2 ([5, 6, 7] : List Int) = Except.error ⟨3, 2⟩ :=
  ⟨(bounded_construction_bounds 2 3 []).1 (by decide),
   ((bounded_construction_bounds 2 0 ([5, 6] : List Int)).2.2.2 (by decide)).2,
   ((bounded_construction_bounds 2 0 ([5, 6, 7] : List Int)).2.2.1 (by decide)).1⟩

/-- C5: the bounded `extend` appends at most `N − size` elements, taken from
the front of the source in order, silently discarding the rest; on a
sequence already at length `N` it appends nothing and leaves the sequence
unchanged. -/
theorem bounded_extend_truncates {N : Nat} (b : BoundedSequence Int N)
    (hc : b.inner.capacity = b.inner.size) (lb : Nat) (src : List Int) :
    (b.extend lb src).inner.asSlice
        = b.inner.asSlice ++ src.take (N - b.inner.size)
    ∧ (b.extend lb src).inner.size
        = b.inner.size + min (N - b.inner.size) src.length
    ∧ (b.inner.size = N → b.extend lb src = b) := by
  have he := bextend_eq b hc lb src
  refine ⟨by rw [he]; rfl, ?_, fun hN => ?_⟩
  · rw [he]
    simp [Sequence.size, List.length_take]
  · rw [he, hN]
    obtain ⟨⟨D, c⟩⟩ := b
    have hc2 : c = D.length := hc
    subst hc2
    simp

theorem bounded_extend_truncates_witness :
    ((⟨⟨[7, 8], 2⟩⟩ : BoundedSequence Int 2).extend 2 [9, 10]
        = (⟨⟨[7, 8], 2⟩⟩ : BoundedSequence Int 2))
    ∧ ((⟨⟨[7], 1⟩⟩ : BoundedSequence Int 3).extend 2 [9, 10, 11]).inner.asSlice
        = [7, 9, 10] :=
  ⟨(bounded_extend_truncates ⟨⟨[7, 8], 2⟩⟩ rfl 2 [9, 10]).2.2 rfl,
   ((bounded_extend_truncates ⟨⟨[7], 1⟩⟩ rfl 2 [9, 10, 11]).1).trans (by decide)⟩

/-- C6: `size ≤ N` holds for every bounded sequence produced or left behind by
the public operations: `default`, `new`, `try_new`, conversion from a slice
or vector, `from_iter`, and `extend` applied to a bounded sequence already
satisfying the invariant. -/
theorem bounded_size_invariant (N : Nat) :
    (BoundedSequence.defaultSeq Int N).inner.size ≤ N
    ∧ (∀ (len : Nat) (b : BoundedSequence Int N),
        BoundedSequence.tryNew Int N len = Except.ok b → b.inner.size ≤ N)
    ∧ (∀ (len : Nat) (b : BoundedSequence Int N),
        BoundedSequence.new? Int N len = some b → b.inner.size ≤ N)
    ∧ (∀ (L : List Int) (b : BoundedSequence Int N),
        BoundedSequence.tryFromSlice N L = Except.ok b → b.inner.size ≤ N)
    ∧ (∀ (L : List Int) (b : BoundedSequence Int N),
        BoundedSequence.tryFromVec N L = Except.ok b → b.inner.size ≤ N)
    ∧ (∀ (lb : Nat) (L : List Int),
        (BoundedSequence.fromIter Int N lb L).inner.size ≤ N)
    ∧ (∀ (b : BoundedSequence Int N) (lb : Nat) (L : List Int),
        b.inner.capacity = b.inner.size → b.inner.size ≤ N →
        (b.extend lb L).inner.size ≤ N) := by
  have htry : ∀ (len : Nat) (b : BoundedSequence Int N),
      BoundedSequence.tryNew Int N len = Except.ok b → b.inner.size ≤ N := by
    intro len b h
    rw [BoundedSequence.tryNew] at h
    by_cases hl : len > N
    · rw [if_pos hl] at h
      exact absurd h (by simp)
    · rw [if_neg hl] at h
      obtain rfl : (⟨Sequence.new Int len⟩ : BoundedSequence Int N) = b := by
        simpa using h
      simpa [Sequence.new, Sequence.size] using Nat.not_lt.mp hl
  have hfrom : ∀ (lb : Nat) (L : List Int),
      (BoundedSequence.fromIter Int N lb L).inner.size ≤ N := by
    intro lb L
    rw [bfromIter_eq]
    simp [Sequence.size, List.length_take]
  refine ⟨by simp [BoundedSequence.defaultSeq, Sequence.size], htry, ?_, ?_, ?_,
    hfrom, ?_⟩
  · intro len b h
    rw [BoundedSequence.new?] at h
    match htn : BoundedSequence.tryNew Int N len with
    | Except.error e => rw [htn] at h; exact absurd h (by simp [Except.toOption])
    | Except.ok b2 =>
        rw [htn] at h
        obtain rfl : b2 = b := by simpa [Except.toOption] using h
        exact htry len b2 htn
  · intro L b h
    rw [BoundedSequence.tryFromSlice] at h
    match htn : BoundedSequence.tryNew Int N L.length with
    | Except.error e => rw [htn] at h; exact absurd h (by simp)
    | Except.ok b2 =>
        rw [htn] at h
        obtain rfl : (⟨b2.inner.cloneFromSlice L⟩ : BoundedSequence Int N) = b := by
          simpa using h
        have hlen : L.length ≤ N := by
          by_contra hgt
          rw [BoundedSequence.tryNew, if_pos (Nat.not_le.mp hgt)] at htn
          exact absurd htn (by simp)
        simpa [Sequence.cloneFromSlice, Sequence.size] using hlen
  · intro L b h
    rw [BoundedSequence.tryFromVec] at h
    by_cases hl : L.length > N
    · rw [if_pos hl] at h
      exact absurd h (by simp)
    · rw [if_neg hl] at h
      obtain rfl : BoundedSequence.fromIter Int N L.length L = b := by simpa using h
      exact hfrom L.length L
  · intro b lb L hc hb
    rw [bextend_eq b hc]
    simp only [Sequence.size, List.length_append, List.length_take]
    have : b.inner.data.length = b.inner.size := rfl
    omega

theorem bounded_size_invariant_witness :
    ((⟨⟨[1], 1⟩⟩ : BoundedSequence Int 2).extend 5 [2, 3, 4]).inner.size ≤ 2
    ∧ (⟨Sequence.new Int 2⟩ : BoundedSequence Int 2).inner.size ≤ 2 :=
  ⟨(bounded_size_invariant 2).2.2.2.2.2.2 ⟨⟨[1], 1⟩⟩ 5 [2, 3, 4] rfl (by decide),
   (bounded_size_invariant 2).2.1 2 ⟨Sequence.new Int 2⟩ rfl⟩

/-- C7: when an element arrives and no slot is free, the `extend` loop grows
the buffer to `nextPowerOfTwo (size + 1)`, which is exactly the least power
of two ≥ `size + 1`; and after `extend` returns, the capacity equals the
logical size — no over-reserved capacity is left behind (for any sequence
without pre-existing spare capacity, any source, and any size hint). -/
theorem extend_growth_policy (s : Sequence Int) (hc : s.capacity = s.size)
    (lb : Nat) (items : List Int) (item : Int) :
    (Sequence.extendStep (s, s.size) item).1.size = nextPowerOfTwo (s.size + 1)
    ∧ (∃ k, nextPowerOfTwo (s.size + 1) = 2 ^ k)
    ∧ s.size + 1 ≤ nextPowerOfTwo (s.size + 1)
    ∧ (∀ m k, m = 2 ^ k → s.size + 1 ≤ m → nextPowerOfTwo (s.size + 1) ≤ m)
    ∧ (s.extend lb items).capacity = (s.extend lb items).size := by
  refine ⟨?_, nextPowerOfTwo_pow _, le_nextPowerOfTwo _,
    fun m k hm hle => nextPowerOfTwo_le hm hle, ?_⟩
  · rw [extendStep_of_full]
    show ((s.resize (nextPowerOfTwo (s.size + 1))).data.set s.size item).length = _
    rw [List.length_set]
    exact resize_size s _
  · rw [extend_eq s hc]
    simp [Sequence.size]

theorem extend_growth_policy_witness :
    (Sequence.extendStep ((⟨[1, 2], 2⟩ : Sequence Int), 2) 3).1.size = nextPowerOfTwo 3
    ∧ ((⟨[1, 2], 2⟩ : Sequence Int).extend 0 [3]).capacity
        = ((⟨[1, 2], 2⟩ : Sequence Int).extend 0 [3]).size :=
  ⟨(extend_growth_policy ⟨[1, 2], 2⟩ rfl 0 [] 3).1,
   (extend_growth_policy ⟨[1, 2], 2⟩ rfl 0 [3] 0).2.2.2.2⟩

/-- C8: at the pointer level, cloning a well-formed sequence produces a
sequence whose slice view equals the original's, element-wise and in order,
backed by a distinct allocation: overwriting any element of either of the two
sequences afterwards leaves the slice view of the other one unchanged. -/
theorem clone_equal_and_independent (h : Heap Int) (s : RawSequence Int)
    (hwf : s.WF h) :
    rawAsSlice (rawClone h s).2 (rawClone h s).1 = rawAsSlice h s
    ∧ rawAsSlice (rawClone h s).2 s = rawAsSlice h s
    ∧ ∀ (i : Nat) (v : Int),
        rawAsSlice (rawSetElem (rawClone h s).2 (rawClone h s).1 i v) s
          = rawAsSlice (rawClone h s).2 s
        ∧ rawAsSlice (rawSetElem (rawClone h s).2 s i v) (rawClone h s).1
          = rawAsSlice (rawClone h s).2 (rawClone h s).1 := by
  obtain ⟨hnull, hsome⟩ := hwf
  rcases Nat.eq_zero_or_pos s.size with hsz | hsz
  · rw [rawClone_zero h s hsz]
    refine ⟨by simp [rawAsSlice, hsz], rfl, fun i v => ⟨rfl, ?_⟩⟩
    simp [rawAsSlice, deref]
  · match hd : s.data with
    | none => exact absurd (hnull hd) (by omega)
    | some b =>
      obtain ⟨hblk, hlen⟩ := hsome b hd
      rw [rawClone_pos hd hblk hsz]
      set X := (h.getD b []).take s.size with hX
      have hne : h.length ≠ b := fun hEq => absurd hEq.symm (Nat.ne_of_lt hblk)
      have hgb : ∀ W, (((h ++ [List.replicate s.size default]).set h.length X).set
            h.length W).getD b [] = h.getD b [] := by
        intro W
        rw [getD_set_ne hne, getD_set_ne hne, getD_append_left hblk]
      have hgb0 : ((h ++ [List.replicate s.size default]).set h.length X).getD b []
          = h.getD b [] := by
        rw [getD_set_ne hne, getD_append_left hblk]
      have hgc : ((h ++ [List.replicate s.size default]).set h.length X).getD
          h.length [] = X := getD_set_self (by simp) X []
      have hXfull : X.take s.size = X :=
        List.take_of_length_le (by rw [hX]; simp [List.length_take])
      have hslice : rawAsSlice h s = X := by
        rw [rawAsSlice, hd, deref_some]
      refine ⟨?_, ?_, fun i v => ⟨?_, ?_⟩⟩
      · rw [hslice, rawAsSlice_some _ _ rfl, hgc, hXfull]
      · rw [hslice, rawAsSlice_some _ _ hd, hgb0]
      · rw [rawSetElem_some _ _ rfl, rawAsSlice_some _ _ hd, rawAsSlice_some _ _ hd,
          hgb, hgb0]
      · rw [rawSetElem_some _ _ hd, rawAsSlice_some _ _ rfl, rawAsSlice_some _ _ rfl,
          getD_set_ne (fun hEq => hne hEq.symm), hgc]

theorem clone_equal_and_independent_witness :
    rawAsSlice (rawClone [[1, 2, 3]] ⟨some 0, 3, 3⟩).2
        (rawClone ([[1, 2, 3]] : Heap Int) ⟨some 0, 3, 3⟩).1 = [1, 2, 3]
    ∧ rawAsSlice (rawSetElem (rawClone [[1, 2, 3]] ⟨some 0, 3, 3⟩).2
        (rawClone ([[1, 2, 3]] : Heap Int) ⟨some 0, 3, 3⟩).1 0 9) ⟨some 0, 3, 3⟩
        = rawAsSlice (rawClone ([[1, 2, 3]] : Heap Int) ⟨some 0, 3, 3⟩).2
            ⟨some 0, 3, 3⟩ := by
  have hwf : (⟨some 0, 3, 3⟩ : RawSequence Int).WF [[1, 2, 3]] := by
    refine ⟨fun hc => by simp at hc, fun b hb => ?_⟩
    cases hb
    exact ⟨by decide, by decide⟩
  have hthm := clone_equal_and_independent [[1, 2, 3]] ⟨some 0, 3, 3⟩ hwf
  exact ⟨(hthm.1).trans rfl, (hthm.2.2 0 9).1⟩

end RosidlSeq
